import Mathlib

/-!
Verification of the agent-memory retrieval engine
(`src/agent_memory/server.py`, class `MemoryEngine`).

The document table, the FTS5 keyword index and the vec0 vector index are
embedded as association lists keyed by the document id.  The embedding
model (`fastembed`) is abstracted as a function `embed : String → E`,
deterministic and side-effect free, exactly the contract the engine
assumes.  Scores are rationals (the Python code computes `1 / (r + 60)`
on machine floats; the formula itself is the object of the claims), and
the freshness multiplier, which involves `math.log`, lives in `ℝ`.
-/

namespace AgentMemory

/-- A row of the `docs` table:
`(category, topic, content, timestamp, last_verified)`; the id is the key
of the association list. -/
structure Doc where
  category : String
  topic : String
  content : String
  timestamp : String
  last_verified : String
deriving DecidableEq, Repr

/-- A row of the `docs_fts` FTS5 table (columns `category, topic, content`,
keyed by `rowid`). -/
structure FtsEntry where
  category : String
  topic : String
  content : String
deriving DecidableEq, Repr

/-- The projection of a document stored in the keyword index. -/
def ftsOf (d : Doc) : FtsEntry :=
  ⟨d.category, d.topic, d.content⟩

/-- The complete persistent state of the engine: the `docs` table, the
`docs_fts` keyword index and the `docs_vec` vector index, each as an
association list in insertion order. -/
structure EngineState (E : Type) where
  docs : List (Nat × Doc)
  fts : List (Nat × FtsEntry)
  vec : List (Nat × E)
deriving DecidableEq

/-- The empty store (fresh database). -/
def EngineState.empty (E : Type) : EngineState E :=
  ⟨[], [], []⟩

/-- Lookup, as in `SELECT ... WHERE id = ?`: the value stored under a key in an
association list (first match). -/
def getVal {β : Type} : List (Nat × β) → Nat → Option β
  | [], _ => none
  | (k, b) :: rest, id => if k = id then some b else getVal rest id

/-- Deletion, as in `DELETE FROM ... WHERE id = ?`: remove every entry stored under a
key. -/
def delKey {β : Type} : List (Nat × β) → Nat → List (Nat × β)
  | [], _ => []
  | (k, b) :: rest, id =>
    if k = id then delKey rest id else (k, b) :: delKey rest id

/-- SQLite id assignment for an `INTEGER PRIMARY KEY` column without
`AUTOINCREMENT`: the new rowid is one greater than the largest rowid
currently in the table (1 on an empty table).  Deleted larger rowids are
forgotten. -/
def nextId (docs : List (Nat × Doc)) : Nat :=
  (docs.map Prod.fst).foldr max 0 + 1

/-- Outcome of a mutation, mirroring the `status` dictionaries the engine
returns. -/
inductive MutResult where
  | success (doc_id : Nat)
  | notFound (doc_id : Nat)
deriving DecidableEq, Repr

/-- Save (`MemoryEngine.save`): embed the content once, then insert the record
and both index entries in one transaction.  Returns the fresh id. -/
def save (embed : String → E) (category topic content now : String)
    (s : EngineState E) : EngineState E × MutResult :=
  let doc_id := nextId s.docs
  (⟨s.docs ++ [(doc_id, ⟨category, topic, content, now, now⟩)],
    s.fts ++ [(doc_id, ⟨category, topic, content⟩)],
    s.vec ++ [(doc_id, embed content)]⟩,
   .success doc_id)

/-- Update (`MemoryEngine.update`): look up the current row; absent ids give a
structured error and leave the state alone.  Unsupplied fields fall back
to the current values; the `docs` row is rewritten; the keyword entry is
rewritten (delete then insert) iff any field was supplied; the vector
entry is re-embedded and rewritten iff `content` was supplied. -/
def update (embed : String → E) (doc_id : Nat)
    (category topic content : Option String)
    (s : EngineState E) : EngineState E × MutResult :=
  match getVal s.docs doc_id with
  | none => (s, .notFound doc_id)
  | some cur =>
    let new_category := category.getD cur.category
    let new_topic := topic.getD cur.topic
    let new_content := content.getD cur.content
    let new_doc : Doc :=
      ⟨new_category, new_topic, new_content, cur.timestamp, cur.last_verified⟩
    let docs' := s.docs.map (fun p => if p.1 = doc_id then (doc_id, new_doc) else p)
    let fts' :=
      if category.isSome ∨ topic.isSome ∨ content.isSome then
        delKey s.fts doc_id ++
          [(doc_id, (⟨new_category, new_topic, new_content⟩ : FtsEntry))]
      else s.fts
    let vec' :=
      if content.isSome then
        delKey s.vec doc_id ++ [(doc_id, embed new_content)]
      else s.vec
    (⟨docs', fts', vec'⟩, .success doc_id)

/-- Delete (`MemoryEngine.delete`): absent ids give a structured error; otherwise
the record and both index entries are removed in one transaction. -/
def delete (doc_id : Nat) (s : EngineState E) : EngineState E × MutResult :=
  match getVal s.docs doc_id with
  | none => (s, .notFound doc_id)
  | some _ =>
    (⟨delKey s.docs doc_id,
      delKey s.fts doc_id,
      delKey s.vec doc_id⟩,
     .success doc_id)

/-- Verify (`verify_memory`): absent ids give a structured error; otherwise only
`last_verified` of the record is set to now; neither index is touched. -/
def verify (doc_id : Nat) (now : String)
    (s : EngineState E) : EngineState E × MutResult :=
  match getVal s.docs doc_id with
  | none => (s, .notFound doc_id)
  | some cur =>
    let new_doc : Doc :=
      ⟨cur.category, cur.topic, cur.content, cur.timestamp, now⟩
    (⟨s.docs.map (fun p => if p.1 = doc_id then (doc_id, new_doc) else p),
      s.fts, s.vec⟩,
     .success doc_id)

/-- One completed mutation of the engine, as exposed by the MCP tools. -/
inductive Mutation where
  | save (category topic content now : String)
  | update (doc_id : Nat) (category topic content : Option String)
  | delete (doc_id : Nat)
  | verify (doc_id : Nat) (now : String)

/-- Apply one completed mutation to the state. -/
def Mutation.apply (embed : String → E) :
    Mutation → EngineState E → EngineState E
  | .save c t co now, s => (AgentMemory.save embed c t co now s).1
  | .update id c t co, s => (AgentMemory.update embed id c t co s).1
  | .delete id, s => (AgentMemory.delete id s).1
  | .verify id now, s => (AgentMemory.verify id now s).1

/-- States reachable from the empty store by completed mutations. -/
inductive Reachable (embed : String → E) : EngineState E → Prop where
  | empty : Reachable embed (EngineState.empty E)
  | step {s : EngineState E} (m : Mutation) :
      Reachable embed s → Reachable embed (m.apply embed s)

/-! ## The query pipeline

`MemoryEngine.query` fans out to the two indexes, fuses the rankings with
Reciprocal Rank Fusion, applies the freshness multiplier and returns the
`top_k` best results.  The two index searches (FTS5 BM25 ranking and
vector nearest-neighbour, each `LIMIT 20`) are database-internal, so the
pipeline takes their result lists — best first — as inputs.  Scores are
kept in an ordered field `K`; the engine instantiates `K := ℝ` because
the freshness multiplier involves a logarithm. -/

/-- One dict update `scores[idx] = scores.get(idx, 0) + v` in insertion
order: add `v` to the entry of `id`, appending a fresh entry at the end
if absent. -/
def bump (scores : List (Nat × ℚ)) (id : Nat) (v : ℚ) : List (Nat × ℚ) :=
  match scores with
  | [] => [(id, v)]
  | (k, w) :: rest => if k = id then (k, w + v) :: rest else (k, w) :: bump rest id v

/-- One fusion loop, `for r, (idx,) in enumerate(hits)` adding `1 / (r + 60)`,
starting at 0-based rank `r`. -/
def addHits (scores : List (Nat × ℚ)) (hits : List Nat) (r : Nat) :
    List (Nat × ℚ) :=
  match hits with
  | [] => scores
  | h :: rest => addHits (bump scores h (1 / ((r : ℚ) + 60))) rest (r + 1)

/-- The Reciprocal Rank Fusion score table built from the keyword hits
and then the vector hits. -/
def rrfScoreList (ftsHits vecHits : List Nat) : List (Nat × ℚ) :=
  addHits (addHits [] ftsHits 0) vecHits 0

/-- Python's `round(x, 4)`: round to four decimal places (ties away from
the exact value are immaterial to the claims below). -/
def round4 {K : Type} [LinearOrderedField K] [FloorRing K] (x : K) : K :=
  (round (x * 10000) : ℤ) / 10000

/-- Python's `xs[:k]` for an arbitrary integer `k`: a nonnegative `k`
keeps the first `k` elements, a negative `k` drops the last `-k`. -/
def pyTake (k : ℤ) (xs : List α) : List α :=
  if 0 ≤ k then xs.take k.toNat else xs.take (xs.length - (-k).toNat)

/-- One element of the list `MemoryEngine.query` returns. -/
structure QueryResult (K : Type) where
  id : Nat
  category : String
  topic : String
  content : String
  timestamp : String
  last_verified : String
  score : K
  base_score : ℚ
deriving DecidableEq

/-- The fusion-and-ranking pipeline of `MemoryEngine.query`, generic in
the score field `K`.  `fresh` maps a stored `last_verified` string to the
freshness multiplier.  Sorting is stable descending, as Python's
`sorted(..., reverse=True)` and `list.sort(..., reverse=True)`. -/
def queryPipeline (K : Type) [LinearOrderedField K] [FloorRing K]
    (fresh : String → K) (docs : List (Nat × Doc))
    (ftsHits vecHits : List Nat) (top_k : ℤ) : List (QueryResult K) :=
  let scores := rrfScoreList ftsHits vecHits
  let candidate_limit := max (top_k * 2) 10
  let candidates :=
    (List.insertionSort (fun x y : Nat × ℚ => y.2 ≤ x.2) scores).take
      candidate_limit.toNat
  if candidates.isEmpty then []
  else
    let final_results := candidates.filterMap (fun c =>
      (getVal docs c.1).map (fun d =>
        { id := c.1, category := d.category, topic := d.topic,
          content := d.content, timestamp := d.timestamp,
          last_verified := d.last_verified,
          score := round4 ((c.2 : K) * fresh d.last_verified),
          base_score := round4 c.2 }))
    pyTake top_k
      (List.insertionSort (fun x y : QueryResult K => y.score ≤ x.score)
        final_results)

/-- The freshness multiplier computed from the age in days of
`last_verified` (`none` models a missing or unparsable timestamp, i.e.
the `except (ValueError, TypeError)` fallback). -/
noncomputable def freshnessFactor (age_days : Option ℝ) : ℝ :=
  match age_days with
  | none => 1
  | some a => max 0.5 (1.0 - Real.log (max 0 a + 1) * 0.05)

/-- Query (`MemoryEngine.query`): the pipeline over `ℝ`, with the freshness
multiplier derived from the parsed age (`ageOf` models
`datetime.strptime` against the fixed `now` taken at the start of the
query). -/
noncomputable def query (ageOf : String → Option ℝ) (docs : List (Nat × Doc))
    (ftsHits vecHits : List Nat) (top_k : ℤ) : List (QueryResult ℝ) :=
  queryPipeline ℝ (fun lv => freshnessFactor (ageOf lv)) docs ftsHits vecHits
    top_k

/-- The fused score the RRF table assigns to a document id (0 when the
id is in neither hit list), i.e. `scores.get(idx, 0)` after fusion. -/
def fusedScore (ftsHits vecHits : List Nat) (id : Nat) : ℚ :=
  (getVal (rrfScoreList ftsHits vecHits) id).getD 0

/-- Specification-side rank contribution of one hit list starting at
0-based rank `r`: an occurrence at rank `r` contributes `1 / (r + 60)`. -/
def rankContrib (hits : List Nat) (r : Nat) (id : Nat) : ℚ :=
  match hits with
  | [] => 0
  | h :: rest =>
    (if h = id then 1 / ((r : ℚ) + 60) else 0) + rankContrib rest (r + 1) id

/-- The synchronization invariant the engine maintains across the three
stores: unique keys in each store, a mirroring keyword entry and an
embedding-carrying vector entry for every record, and no index entry
without a record. -/
structure Inv (embed : String → E) (s : EngineState E) : Prop where
  docs_nodup : (s.docs.map Prod.fst).Nodup
  fts_nodup : (s.fts.map Prod.fst).Nodup
  vec_nodup : (s.vec.map Prod.fst).Nodup
  fts_mirror : ∀ p ∈ s.docs, (p.1, ftsOf p.2) ∈ s.fts
  vec_mirror : ∀ p ∈ s.docs, (p.1, embed p.2.content) ∈ s.vec
  fts_dom : ∀ q ∈ s.fts, q.1 ∈ s.docs.map Prod.fst
  vec_dom : ∀ q ∈ s.vec, q.1 ∈ s.docs.map Prod.fst

/-! Concrete fixtures used by witnesses and counterexamples. -/

/-- A concrete stand-in embedder for witnesses (any deterministic
function qualifies). -/
def embedLen : String → Nat := String.length

/-- Fixture record 1. -/
def doc1 : Doc := ⟨"cat", "top", "one", "t0", "v0"⟩

/-- Fixture record 2. -/
def doc2 : Doc := ⟨"cat", "top", "two", "t0", "v0"⟩

/-- A keyword hit list of length 20 with document 1 first and document 2
last (0-based rank 19). -/
def ftsEx : List Nat := 1 :: ((List.range 18).map (fun i => 100 + i) ++ [2])

/-- A vector hit list of length 20 with document 2 last (0-based rank
19) and document 1 absent. -/
def vecEx : List Nat := (List.range 19).map (fun i => 200 + i) ++ [2]

/-- The single result of querying the store `[(1, doc1)]` with keyword
hits `[1]`, no vector hits, multiplier 1 and `top_k = 1`: the fused
score `1/60` appears rounded to `0.0167`. -/
def qres1 : QueryResult ℚ :=
  ⟨1, "cat", "top", "one", "t0", "v0", 167 / 10000, 167 / 10000⟩

/-! ## Association-list toolkit -/

theorem getVal_eq_none {β : Type} {l : List (Nat × β)} {id : Nat}
    (h : id ∉ l.map Prod.fst) : getVal l id = none := by
  induction l with
  | nil => rfl
  | cons p rest ih =>
    obtain ⟨k, w⟩ := p
    simp only [List.map_cons, List.mem_cons, not_or] at h
    simp only [getVal, if_neg (fun hk : k = id => h.1 hk.symm)]
    exact ih h.2

theorem getVal_some_mem {β : Type} {l : List (Nat × β)} {id : Nat} {b : β}
    (h : getVal l id = some b) : (id, b) ∈ l := by
  induction l with
  | nil => simp [getVal] at h
  | cons p rest ih =>
    obtain ⟨k, w⟩ := p
    by_cases hk : k = id
    · subst hk
      have h' : w = b := by simpa [getVal] using h
      subst h'
      exact List.mem_cons_self _ _
    · simp only [getVal, if_neg hk] at h
      exact List.mem_cons_of_mem _ (ih h)

theorem mem_keys_of_getVal_some {β : Type} {l : List (Nat × β)} {id : Nat}
    {b : β} (h : getVal l id = some b) : id ∈ l.map Prod.fst :=
  List.mem_map.2 ⟨(id, b), getVal_some_mem h, rfl⟩

theorem getVal_of_mem_nodup {β : Type} {l : List (Nat × β)} {id : Nat}
    {b : β} (hn : (l.map Prod.fst).Nodup) (hm : (id, b) ∈ l) :
    getVal l id = some b := by
  induction l with
  | nil => simp at hm
  | cons p rest ih =>
    obtain ⟨k, w⟩ := p
    simp only [List.map_cons, List.nodup_cons] at hn
    rcases List.mem_cons.1 hm with h | h
    · injection h with h1 h2
      subst h1
      subst h2
      simp [getVal]
    · have hk : k ≠ id := by
        rintro rfl
        exact hn.1 (List.mem_map.2 ⟨(k, b), h, rfl⟩)
      simp only [getVal, if_neg hk]
      exact ih hn.2 h

theorem mem_delKey {β : Type} {l : List (Nat × β)} {id : Nat}
    {p : Nat × β} : p ∈ delKey l id ↔ p ∈ l ∧ p.1 ≠ id := by
  induction l with
  | nil => simp [delKey]
  | cons q rest ih =>
    obtain ⟨k, w⟩ := q
    by_cases hk : k = id
    · subst hk
      simp only [delKey, if_true, eq_self_iff_true, List.mem_cons, ih]
      constructor
      · rintro ⟨hp, hne⟩
        exact ⟨Or.inr hp, hne⟩
      · rintro ⟨hp | hp, hne⟩
        · exact absurd (congrArg Prod.fst hp) hne
        · exact ⟨hp, hne⟩
    · simp only [delKey, if_neg hk, List.mem_cons, ih]
      constructor
      · rintro (rfl | ⟨hp, hne⟩)
        · exact ⟨Or.inl rfl, hk⟩
        · exact ⟨Or.inr hp, hne⟩
      · rintro ⟨rfl | hp, hne⟩
        · exact Or.inl rfl
        · exact Or.inr ⟨hp, hne⟩

theorem mem_keys_delKey {β : Type} {l : List (Nat × β)} {id k : Nat} :
    k ∈ (delKey l id).map Prod.fst ↔ k ∈ l.map Prod.fst ∧ k ≠ id := by
  simp only [List.mem_map]
  constructor
  · rintro ⟨p, hp, rfl⟩
    obtain ⟨hl, hne⟩ := mem_delKey.1 hp
    exact ⟨⟨p, hl, rfl⟩, hne⟩
  · rintro ⟨⟨p, hl, rfl⟩, hne⟩
    exact ⟨p, mem_delKey.2 ⟨hl, hne⟩, rfl⟩

theorem keys_delKey_nodup {β : Type} {l : List (Nat × β)} {id : Nat}
    (hn : (l.map Prod.fst).Nodup) : ((delKey l id).map Prod.fst).Nodup := by
  induction l with
  | nil => simp [delKey]
  | cons q rest ih =>
    obtain ⟨k, w⟩ := q
    simp only [List.map_cons, List.nodup_cons] at hn
    by_cases hk : k = id
    · simpa only [delKey, if_pos hk] using ih hn.2
    · simp only [delKey, if_neg hk, List.map_cons, List.nodup_cons]
      refine ⟨fun hm => hn.1 ?_, ih hn.2⟩
      exact (mem_keys_delKey.1 hm).1

theorem getVal_delKey_ne {β : Type} {l : List (Nat × β)} {id j : Nat}
    (h : j ≠ id) : getVal (delKey l id) j = getVal l j := by
  induction l with
  | nil => rfl
  | cons q rest ih =>
    obtain ⟨k, w⟩ := q
    by_cases hk : k = id
    · subst hk
      simp only [delKey, if_pos rfl, getVal,
        if_neg (fun hkj : k = j => h hkj.symm)]
      exact ih
    · simp only [delKey, if_neg hk, getVal]
      by_cases hkj : k = j
      · simp [hkj]
      · simp only [if_neg hkj]
        exact ih

theorem getVal_delKey_self {β : Type} (l : List (Nat × β)) (id : Nat) :
    getVal (delKey l id) id = none := by
  apply getVal_eq_none
  intro hm
  exact (mem_keys_delKey.1 hm).2 rfl

theorem getVal_append_left {β : Type} {l1 : List (Nat × β)}
    (l2 : List (Nat × β)) {id : Nat} {b : β} (h : getVal l1 id = some b) :
    getVal (l1 ++ l2) id = some b := by
  induction l1 with
  | nil => simp [getVal] at h
  | cons p rest ih =>
    obtain ⟨k, w⟩ := p
    by_cases hk : k = id
    · subst hk
      simpa [getVal] using h
    · simp only [getVal, if_neg hk] at h ⊢
      exact ih h

theorem getVal_append_right {β : Type} {l1 : List (Nat × β)}
    (l2 : List (Nat × β)) {id : Nat} (h : getVal l1 id = none) :
    getVal (l1 ++ l2) id = getVal l2 id := by
  induction l1 with
  | nil => rfl
  | cons p rest ih =>
    obtain ⟨k, w⟩ := p
    by_cases hk : k = id
    · subst hk
      simp [getVal] at h
    · simp only [getVal, if_neg hk] at h ⊢
      exact ih h

theorem keys_map_replace {β : Type} (l : List (Nat × β)) (id : Nat) (b : β) :
    (l.map (fun p => if p.1 = id then (id, b) else p)).map Prod.fst =
      l.map Prod.fst := by
  induction l with
  | nil => rfl
  | cons q rest ih =>
    simp only [List.map_cons, ih]
    by_cases hk : q.1 = id
    · simp [hk]
    · simp [hk]

theorem map_replace_of_notMem {β : Type} {l : List (Nat × β)} {id : Nat}
    {b : β} (h : id ∉ l.map Prod.fst) :
    l.map (fun p => if p.1 = id then (id, b) else p) = l := by
  induction l with
  | nil => rfl
  | cons q rest ih =>
    simp only [List.map_cons, List.mem_cons, not_or] at h
    simp only [List.map_cons, if_neg (fun hq : q.1 = id => h.1 hq.symm)]
    rw [ih h.2]

theorem map_replace_self {β : Type} {l : List (Nat × β)} {id : Nat} {b : β}
    (hn : (l.map Prod.fst).Nodup) (hm : (id, b) ∈ l) :
    l.map (fun p => if p.1 = id then (id, b) else p) = l := by
  induction l with
  | nil => rfl
  | cons q rest ih =>
    obtain ⟨k, w⟩ := q
    simp only [List.map_cons, List.nodup_cons] at hn
    rcases List.mem_cons.1 hm with h | h
    · injection h with h1 h2
      subst h1
      subst h2
      simp only [List.map_cons, ite_self]
      rw [map_replace_of_notMem hn.1]
    · have hk : k ≠ id := by
        rintro rfl
        exact hn.1 (List.mem_map.2 ⟨(k, b), h, rfl⟩)
      simp only [List.map_cons, if_neg hk]
      rw [ih hn.2 h]

theorem getVal_map_replace_self {β : Type} {l : List (Nat × β)} {id : Nat}
    (b : β) (h : id ∈ l.map Prod.fst) :
    getVal (l.map (fun p => if p.1 = id then (id, b) else p)) id = some b := by
  induction l with
  | nil => simp at h
  | cons q rest ih =>
    obtain ⟨k, w⟩ := q
    simp only [List.map_cons]
    by_cases hk : k = id
    · subst hk
      simp only [ite_self]  
      simp [getVal]
    · rw [if_neg hk]
      simp only [getVal, if_neg hk]
      simp only [List.map_cons, List.mem_cons] at h
      rcases h with h | h
      · exact absurd h.symm hk
      · exact ih h

theorem getVal_map_replace_ne {β : Type} {l : List (Nat × β)} {id j : Nat}
    (b : β) (h : j ≠ id) :
    getVal (l.map (fun p => if p.1 = id then (id, b) else p)) j =
      getVal l j := by
  induction l with
  | nil => rfl
  | cons q rest ih =>
    obtain ⟨k, w⟩ := q
    simp only [List.map_cons]
    by_cases hk : k = id
    · subst hk
      simp only [ite_self]
      simp only [getVal, if_neg (fun hkj : k = j => h hkj.symm)]
      exact ih
    · rw [if_neg hk]
      simp only [getVal]
      by_cases hkj : k = j
      · simp [hkj]
      · simp only [if_neg hkj]
        exact ih

theorem mem_map_replace {β : Type} {l : List (Nat × β)} {id : Nat} {b : β}
    {p : Nat × β}
    (hm : p ∈ l.map (fun p => if p.1 = id then (id, b) else p)) :
    p = (id, b) ∨ (p ∈ l ∧ p.1 ≠ id) := by
  rcases List.mem_map.1 hm with ⟨q, hq, rfl⟩
  by_cases hk : q.1 = id
  · exact Or.inl (by simp [hk])
  · exact Or.inr (by simpa [hk] using hq)

theorem filter_key_eq_singleton {β : Type} {l : List (Nat × β)} {a : Nat}
    {b : β} (hn : (l.map Prod.fst).Nodup) (hm : (a, b) ∈ l) :
    l.filter (fun q => q.1 = a) = [(a, b)] := by
  induction l with
  | nil => simp at hm
  | cons q rest ih =>
    obtain ⟨k, w⟩ := q
    simp only [List.map_cons, List.nodup_cons] at hn
    rcases List.mem_cons.1 hm with h | h
    · injection h with h1 h2
      subst h1
      subst h2
      simp only [List.filter_cons, decide_eq_true_eq, eq_self_iff_true,
        if_true]
      rw [List.filter_eq_nil_iff.2]
      intro p hp
      simp only [decide_eq_true_eq]
      rintro rfl
      exact hn.1 (List.mem_map.2 ⟨p, hp, rfl⟩)
    · have hk : k ≠ a := by
        rintro rfl
        exact hn.1 (List.mem_map.2 ⟨(k, b), h, rfl⟩)
      simp only [List.filter_cons, decide_eq_true_eq, if_neg hk]
      exact ih hn.2 h

theorem le_foldr_max {l : List Nat} : ∀ id ∈ l, id ≤ l.foldr max 0 := by
  induction l with
  | nil => simp
  | cons k rest ih =>
    intro id hid
    rcases List.mem_cons.1 hid with rfl | h
    · exact le_max_left _ _
    · exact le_trans (ih id h) (le_max_right _ _)

theorem lt_nextId {docs : List (Nat × Doc)} :
    ∀ id ∈ docs.map Prod.fst, id < nextId docs := by
  intro id hid
  exact Nat.lt_succ_of_le (le_foldr_max id hid)

theorem nextId_notMem (docs : List (Nat × Doc)) :
    nextId docs ∉ docs.map Prod.fst := by
  intro h
  exact absurd (lt_nextId _ h) (lt_irrefl _)

/-! ## Preservation of the synchronization invariant -/

theorem nodup_snoc {α : Type} {l : List α} {a : α} (hn : l.Nodup)
    (ha : a ∉ l) : (l ++ [a]).Nodup := by
  refine List.Nodup.append hn (List.nodup_singleton a) ?_
  intro x hx hx'
  rw [List.mem_singleton] at hx'
  subst hx'
  exact ha hx

theorem inv_empty {E : Type} (embed : String → E) :
    Inv embed (EngineState.empty E) := by
  refine ⟨?_, ?_, ?_, ?_, ?_, ?_, ?_⟩ <;> simp [EngineState.empty]

theorem inv_save {E : Type} {embed : String → E} {s : EngineState E}
    (hI : Inv embed s) (c t co now : String) :
    Inv embed (save embed c t co now s).1 := by
  have hnd : nextId s.docs ∉ s.docs.map Prod.fst := nextId_notMem s.docs
  have hnf : nextId s.docs ∉ s.fts.map Prod.fst := by
    intro h
    rcases List.mem_map.1 h with ⟨q, hq, hfst⟩
    exact hnd (hfst ▸ hI.fts_dom q hq)
  have hnv : nextId s.docs ∉ s.vec.map Prod.fst := by
    intro h
    rcases List.mem_map.1 h with ⟨q, hq, hfst⟩
    exact hnd (hfst ▸ hI.vec_dom q hq)
  refine ⟨?_, ?_, ?_, ?_, ?_, ?_, ?_⟩
  · rw [show (save embed c t co now s).1.docs =
      s.docs ++ [(nextId s.docs, ⟨c, t, co, now, now⟩)] from rfl,
      List.map_append]
    exact nodup_snoc hI.docs_nodup (by simpa using hnd)
  · rw [show (save embed c t co now s).1.fts =
      s.fts ++ [(nextId s.docs, ⟨c, t, co⟩)] from rfl, List.map_append]
    exact nodup_snoc hI.fts_nodup (by simpa using hnf)
  · rw [show (save embed c t co now s).1.vec =
      s.vec ++ [(nextId s.docs, embed co)] from rfl, List.map_append]
    exact nodup_snoc hI.vec_nodup (by simpa using hnv)
  · intro p hp
    rcases List.mem_append.1 hp with h | h
    · exact List.mem_append_left _ (hI.fts_mirror p h)
    · rw [List.mem_singleton] at h
      subst h
      exact List.mem_append_right _ (by simp [ftsOf])
  · intro p hp
    rcases List.mem_append.1 hp with h | h
    · exact List.mem_append_left _ (hI.vec_mirror p h)
    · rw [List.mem_singleton] at h
      subst h
      exact List.mem_append_right _ (by simp)
  · intro q hq
    rw [show (save embed c t co now s).1.docs =
      s.docs ++ [(nextId s.docs, ⟨c, t, co, now, now⟩)] from rfl,
      List.map_append]
    rcases List.mem_append.1 hq with h | h
    · exact List.mem_append_left _ (hI.fts_dom q h)
    · rw [List.mem_singleton] at h
      subst h
      exact List.mem_append_right _ (by simp)
  · intro q hq
    rw [show (save embed c t co now s).1.docs =
      s.docs ++ [(nextId s.docs, ⟨c, t, co, now, now⟩)] from rfl,
      List.map_append]
    rcases List.mem_append.1 hq with h | h
    · exact List.mem_append_left _ (hI.vec_dom q h)
    · rw [List.mem_singleton] at h
      subst h
      exact List.mem_append_right _ (by simp)

theorem mem_delKey_snoc {β : Type} {l : List (Nat × β)} {id : Nat} {b : β}
    {p : Nat × β} :
    p ∈ delKey l id ++ [(id, b)] ↔ p = (id, b) ∨ (p ∈ l ∧ p.1 ≠ id) := by
  rw [List.mem_append, List.mem_singleton, mem_delKey]
  tauto

theorem keys_delKey_snoc_nodup {β : Type} {l : List (Nat × β)} {id : Nat}
    {b : β} (hn : (l.map Prod.fst).Nodup) :
    ((delKey l id ++ [(id, b)]).map Prod.fst).Nodup := by
  rw [List.map_append]
  refine nodup_snoc (keys_delKey_nodup hn) ?_
  intro h
  simp only [List.map_cons, List.map_nil] at h
  exact (mem_keys_delKey.1 h).2 rfl

theorem inv_update {E : Type} {embed : String → E} {s : EngineState E}
    (hI : Inv embed s) (id : Nat) (c t co : Option String) :
    Inv embed (update embed id c t co s).1 := by
  rcases hcur : getVal s.docs id with _ | cur
  · have hred : (update embed id c t co s).1 = s := by
      simp [update, hcur]
    rw [hred]
    exact hI
  · have hmem : (id, cur) ∈ s.docs := getVal_some_mem hcur
    have hkey : id ∈ s.docs.map Prod.fst := List.mem_map.2 ⟨_, hmem, rfl⟩
    have hred : (update embed id c t co s).1 =
        ⟨s.docs.map (fun p => if p.1 = id then
            (id, (⟨c.getD cur.category, t.getD cur.topic,
                  co.getD cur.content, cur.timestamp,
                  cur.last_verified⟩ : Doc)) else p),
          if c.isSome ∨ t.isSome ∨ co.isSome then
            delKey s.fts id ++ [(id, ⟨c.getD cur.category, t.getD cur.topic,
              co.getD cur.content⟩)]
          else s.fts,
          if co.isSome then
            delKey s.vec id ++ [(id, embed (co.getD cur.content))]
          else s.vec⟩ := by
      simp [update, hcur]
    rw [hred]
    refine ⟨?_, ?_, ?_, ?_, ?_, ?_, ?_⟩
    · rw [keys_map_replace]
      exact hI.docs_nodup
    · by_cases hc : c.isSome ∨ t.isSome ∨ co.isSome
      · rw [if_pos hc]
        exact keys_delKey_snoc_nodup hI.fts_nodup
      · rw [if_neg hc]
        exact hI.fts_nodup
    · by_cases hc : co.isSome
      · rw [if_pos hc]
        exact keys_delKey_snoc_nodup hI.vec_nodup
      · rw [if_neg hc]
        exact hI.vec_nodup
    · intro p hp
      rcases mem_map_replace hp with rfl | ⟨hpl, hpne⟩
      · by_cases hc : c.isSome ∨ t.isSome ∨ co.isSome
        · rw [if_pos hc]
          exact mem_delKey_snoc.2 (Or.inl rfl)
        · rw [if_neg hc]
          push_neg at hc
          obtain rfl : c = none := Option.not_isSome_iff_eq_none.1 hc.1
          obtain rfl : t = none := Option.not_isSome_iff_eq_none.1 hc.2.1
          obtain rfl : co = none := Option.not_isSome_iff_eq_none.1 hc.2.2
          exact hI.fts_mirror (id, cur) hmem
      · by_cases hc : c.isSome ∨ t.isSome ∨ co.isSome
        · rw [if_pos hc]
          exact mem_delKey_snoc.2 (Or.inr ⟨hI.fts_mirror p hpl, hpne⟩)
        · rw [if_neg hc]
          exact hI.fts_mirror p hpl
    · intro p hp
      rcases mem_map_replace hp with rfl | ⟨hpl, hpne⟩
      · by_cases hc : co.isSome
        · rw [if_pos hc]
          exact mem_delKey_snoc.2 (Or.inl rfl)
        · rw [if_neg hc]
          obtain rfl : co = none := Option.not_isSome_iff_eq_none.1 hc
          exact hI.vec_mirror (id, cur) hmem
      · by_cases hc : co.isSome
        · rw [if_pos hc]
          exact mem_delKey_snoc.2 (Or.inr ⟨hI.vec_mirror p hpl, hpne⟩)
        · rw [if_neg hc]
          exact hI.vec_mirror p hpl
    · intro q hq
      rw [keys_map_replace]
      by_cases hc : c.isSome ∨ t.isSome ∨ co.isSome
      · rw [if_pos hc] at hq
        rcases mem_delKey_snoc.1 hq with rfl | ⟨hql, _⟩
        · exact hkey
        · exact hI.fts_dom q hql
      · rw [if_neg hc] at hq
        exact hI.fts_dom q hq
    · intro q hq
      rw [keys_map_replace]
      by_cases hc : co.isSome
      · rw [if_pos hc] at hq
        rcases mem_delKey_snoc.1 hq with rfl | ⟨hql, _⟩
        · exact hkey
        · exact hI.vec_dom q hql
      · rw [if_neg hc] at hq
        exact hI.vec_dom q hq

theorem inv_delete {E : Type} {embed : String → E} {s : EngineState E}
    (hI : Inv embed s) (id : Nat) : Inv embed (delete id s).1 := by
  rcases hcur : getVal s.docs id with _ | cur
  · have hred : (delete id s).1 = s := by
      simp [delete, hcur]
    rw [hred]
    exact hI
  · have hred : (delete id s).1 =
        ⟨delKey s.docs id, delKey s.fts id, delKey s.vec id⟩ := by
      simp [delete, hcur]
    rw [hred]
    refine ⟨keys_delKey_nodup hI.docs_nodup, keys_delKey_nodup hI.fts_nodup,
      keys_delKey_nodup hI.vec_nodup, ?_, ?_, ?_, ?_⟩
    · intro p hp
      obtain ⟨hpl, hpne⟩ := mem_delKey.1 hp
      exact mem_delKey.2 ⟨hI.fts_mirror p hpl, hpne⟩
    · intro p hp
      obtain ⟨hpl, hpne⟩ := mem_delKey.1 hp
      exact mem_delKey.2 ⟨hI.vec_mirror p hpl, hpne⟩
    · intro q hq
      obtain ⟨hql, hqne⟩ := mem_delKey.1 hq
      exact mem_keys_delKey.2 ⟨hI.fts_dom q hql, hqne⟩
    · intro q hq
      obtain ⟨hql, hqne⟩ := mem_delKey.1 hq
      exact mem_keys_delKey.2 ⟨hI.vec_dom q hql, hqne⟩

theorem inv_verify {E : Type} {embed : String → E} {s : EngineState E}
    (hI : Inv embed s) (id : Nat) (now : String) :
    Inv embed (verify id now s).1 := by
  rcases hcur : getVal s.docs id with _ | cur
  · have hred : (verify id now s).1 = s := by
      simp [verify, hcur]
    rw [hred]
    exact hI
  · have hmem : (id, cur) ∈ s.docs := getVal_some_mem hcur
    have hred : (verify id now s).1 =
        ⟨s.docs.map (fun p => if p.1 = id then
            (id, (⟨cur.category, cur.topic, cur.content, cur.timestamp,
                  now⟩ : Doc)) else p),
          s.fts, s.vec⟩ := by
      simp [verify, hcur]
    rw [hred]
    refine ⟨?_, hI.fts_nodup, hI.vec_nodup, ?_, ?_, ?_, ?_⟩
    · rw [keys_map_replace]
      exact hI.docs_nodup
    · intro p hp
      rcases mem_map_replace hp with rfl | ⟨hpl, _⟩
      · exact hI.fts_mirror (id, cur) hmem
      · exact hI.fts_mirror p hpl
    · intro p hp
      rcases mem_map_replace hp with rfl | ⟨hpl, _⟩
      · exact hI.vec_mirror (id, cur) hmem
      · exact hI.vec_mirror p hpl
    · intro q hq
      rw [keys_map_replace]
      exact hI.fts_dom q hq
    · intro q hq
      rw [keys_map_replace]
      exact hI.vec_dom q hq

theorem inv_reachable {E : Type} {embed : String → E} {s : EngineState E}
    (h : Reachable embed s) : Inv embed s := by
  induction h with
  | empty => exact inv_empty embed
  | step m _ ih =>
    cases m with
    | save c t co now => exact inv_save ih c t co now
    | update id c t co => exact inv_update ih id c t co
    | delete id => exact inv_delete ih id
    | verify id now => exact inv_verify ih id now

theorem getVal_delKey_snoc_self {β : Type} (l : List (Nat × β)) (id : Nat)
    (b : β) : getVal (delKey l id ++ [(id, b)]) id = some b := by
  rw [getVal_append_right _ (getVal_delKey_self l id)]
  simp [getVal]

theorem getVal_delKey_snoc_ne {β : Type} {l : List (Nat × β)} {id j : Nat}
    (b : β) (h : j ≠ id) :
    getVal (delKey l id ++ [(id, b)]) j = getVal l j := by
  cases hres : getVal (delKey l id) j with
  | none =>
    rw [getVal_append_right _ hres]
    rw [getVal_delKey_ne h] at hres
    simp [getVal, if_neg (fun hj : id = j => h hj.symm), hres]
  | some w =>
    rw [getVal_append_left _ hres]
    rw [getVal_delKey_ne h] at hres
    exact hres.symm

/-! ## Claims about the mutation path -/

/-- C1: in every state reachable from the empty store by completed
mutations, each record with id X has exactly one keyword-index entry
keyed by X, mirroring its category/topic/content, and exactly one
vector-index entry keyed by X holding the embedding of its content, and
no index entry exists whose id is not in the document table. -/
theorem three_store_sync {E : Type} (embed : String → E) (s : EngineState E)
    (h : Reachable embed s) :
    (∀ p ∈ s.docs,
        s.fts.filter (fun q => q.1 = p.1) = [(p.1, ftsOf p.2)] ∧
        s.vec.filter (fun q => q.1 = p.1) = [(p.1, embed p.2.content)]) ∧
    (∀ q ∈ s.fts, q.1 ∈ s.docs.map Prod.fst) ∧
    (∀ q ∈ s.vec, q.1 ∈ s.docs.map Prod.fst) := by
  have hI := inv_reachable h
  refine ⟨?_, hI.fts_dom, hI.vec_dom⟩
  intro p hp
  exact ⟨filter_key_eq_singleton hI.fts_nodup (hI.fts_mirror p hp),
    filter_key_eq_singleton hI.vec_nodup (hI.vec_mirror p hp)⟩

/-- Witness for C1 at the state reached by one completed save. -/
theorem three_store_sync_witness :
    Reachable embedLen
      ((Mutation.save "cat" "top" "one" "t0").apply embedLen
        (EngineState.empty Nat)) ∧
    ((∀ p ∈ ((Mutation.save "cat" "top" "one" "t0").apply embedLen
          (EngineState.empty Nat)).docs,
        ((Mutation.save "cat" "top" "one" "t0").apply embedLen
          (EngineState.empty Nat)).fts.filter (fun q => q.1 = p.1) =
            [(p.1, ftsOf p.2)] ∧
        ((Mutation.save "cat" "top" "one" "t0").apply embedLen
          (EngineState.empty Nat)).vec.filter (fun q => q.1 = p.1) =
            [(p.1, embedLen p.2.content)]) ∧
      (∀ q ∈ ((Mutation.save "cat" "top" "one" "t0").apply embedLen
          (EngineState.empty Nat)).fts,
        q.1 ∈ ((Mutation.save "cat" "top" "one" "t0").apply embedLen
          (EngineState.empty Nat)).docs.map Prod.fst) ∧
      (∀ q ∈ ((Mutation.save "cat" "top" "one" "t0").apply embedLen
          (EngineState.empty Nat)).vec,
        q.1 ∈ ((Mutation.save "cat" "top" "one" "t0").apply embedLen
          (EngineState.empty Nat)).docs.map Prod.fst)) :=
  ⟨Reachable.step _ Reachable.empty,
   three_store_sync embedLen _ (Reachable.step _ Reachable.empty)⟩

/-- C6: in every reachable state, an update that supplies no content
leaves the vector index untouched, and an update that supplies content
equal to the record's current content leaves the stored embedding of
every id unchanged. -/
theorem update_vector_frame {E : Type} (embed : String → E)
    {s : EngineState E} (h : Reachable embed s) (id : Nat)
    (c t : Option String) :
    ((update embed id c t none s).1.vec = s.vec) ∧
    (∀ co d, getVal s.docs id = some d → co = d.content →
      ∀ j, getVal (update embed id c t (some co) s).1.vec j =
        getVal s.vec j) := by
  have hI := inv_reachable h
  constructor
  · rcases hcur : getVal s.docs id with _ | cur
    · simp [update, hcur]
    · simp [update, hcur]
  · intro co d hd hco j
    have hmem : (id, d) ∈ s.docs := getVal_some_mem hd
    have hvec : (update embed id c t (some co) s).1.vec =
        delKey s.vec id ++ [(id, embed co)] := by
      simp [update, hd]
    rw [hvec]
    by_cases hj : j = id
    · subst hj
      rw [getVal_delKey_snoc_self]
      rw [hco]
      exact (getVal_of_mem_nodup hI.vec_nodup (hI.vec_mirror (j, d) hmem)).symm
    · exact getVal_delKey_snoc_ne _ hj

/-- Witness for C6 after one completed save. -/
theorem update_vector_frame_witness :
    Reachable embedLen
      ((Mutation.save "cat" "top" "one" "t0").apply embedLen
        (EngineState.empty Nat)) ∧
    (((update embedLen 1 none none none
        ((Mutation.save "cat" "top" "one" "t0").apply embedLen
          (EngineState.empty Nat))).1.vec =
      ((Mutation.save "cat" "top" "one" "t0").apply embedLen
        (EngineState.empty Nat)).vec) ∧
    (∀ co d, getVal ((Mutation.save "cat" "top" "one" "t0").apply embedLen
        (EngineState.empty Nat)).docs 1 = some d → co = d.content →
      ∀ j, getVal (update embedLen 1 none none (some co)
          ((Mutation.save "cat" "top" "one" "t0").apply embedLen
            (EngineState.empty Nat))).1.vec j =
        getVal ((Mutation.save "cat" "top" "one" "t0").apply embedLen
          (EngineState.empty Nat)).vec j)) :=
  ⟨Reachable.step _ Reachable.empty,
   update_vector_frame embedLen (Reachable.step _ Reachable.empty) 1
     none none⟩

/-- C7: in every reachable state, an update supplying no fields is a
no-op on the whole state, and an update on an existing id rewrites the
record with unsupplied fields keeping their current values and
`last_verified` always unchanged. -/
theorem update_frame {E : Type} (embed : String → E) {s : EngineState E}
    (h : Reachable embed s) (id : Nat) :
    ((update embed id none none none s).1 = s) ∧
    (∀ (c t co : Option String) (d : Doc), getVal s.docs id = some d →
      getVal (update embed id c t co s).1.docs id =
        some ⟨c.getD d.category, t.getD d.topic, co.getD d.content,
          d.timestamp, d.last_verified⟩) := by
  have hI := inv_reachable h
  constructor
  · rcases hcur : getVal s.docs id with _ | cur
    · simp [update, hcur]
    · have hmem : (id, cur) ∈ s.docs := getVal_some_mem hcur
      have hdocs : s.docs.map (fun p => if p.1 = id then (id, cur) else p) =
          s.docs := map_replace_self hI.docs_nodup hmem
      obtain ⟨docs, fts, vec⟩ := s
      simp only [update, hcur] at *
      simp only [Option.getD_none, Option.isSome_none, Bool.false_eq_true,
        or_self, if_false]
      rw [show (⟨cur.category, cur.topic, cur.content, cur.timestamp,
        cur.last_verified⟩ : Doc) = cur from rfl, hdocs]
  · intro c t co d hd
    have hkey : id ∈ s.docs.map Prod.fst := mem_keys_of_getVal_some hd
    have hdocs : (update embed id c t co s).1.docs =
        s.docs.map (fun p => if p.1 = id then
          (id, (⟨c.getD d.category, t.getD d.topic, co.getD d.content,
            d.timestamp, d.last_verified⟩ : Doc)) else p) := by
      simp [update, hd]
    rw [hdocs]
    exact getVal_map_replace_self _ hkey

/-- Witness for C7 after one completed save. -/
theorem update_frame_witness :
    Reachable embedLen
      ((Mutation.save "cat" "top" "one" "t0").apply embedLen
        (EngineState.empty Nat)) ∧
    (((update embedLen 1 none none none
        ((Mutation.save "cat" "top" "one" "t0").apply embedLen
          (EngineState.empty Nat))).1 =
      (Mutation.save "cat" "top" "one" "t0").apply embedLen
        (EngineState.empty Nat)) ∧
    (∀ (c t co : Option String) (d : Doc),
      getVal ((Mutation.save "cat" "top" "one" "t0").apply embedLen
        (EngineState.empty Nat)).docs 1 = some d →
      getVal (update embedLen 1 c t co
          ((Mutation.save "cat" "top" "one" "t0").apply embedLen
            (EngineState.empty Nat))).1.docs 1 =
        some ⟨c.getD d.category, t.getD d.topic, co.getD d.content,
          d.timestamp, d.last_verified⟩)) :=
  ⟨Reachable.step _ Reachable.empty,
   update_frame embedLen (Reachable.step _ Reachable.empty) 1⟩

/-- C8 (counterexample): save with empty content does mutate the store —
there is no validation step, so the claimed failure before any index
mutation does not happen. -/
theorem save_validation_counterexample :
    (save embedLen "cat" "top" "" "t0" (EngineState.empty Nat)).1 ≠
      EngineState.empty Nat := by
  intro h
  have hl := congrArg (fun st : EngineState Nat => st.docs.length) h
  simp [save, EngineState.empty] at hl

/-- C8 (amended): save performs no validation; a save with empty content
proceeds exactly like any other save, inserting the record and both index
entries and returning the fresh id. -/
theorem save_empty_content {E : Type} (embed : String → E)
    (c t now : String) (s : EngineState E) :
    save embed c t "" now s =
      (⟨s.docs ++ [(nextId s.docs, ⟨c, t, "", now, now⟩)],
        s.fts ++ [(nextId s.docs, ⟨c, t, ""⟩)],
        s.vec ++ [(nextId s.docs, embed "")]⟩,
       .success (nextId s.docs)) := rfl

/-- C9 (counterexample): ids are reused — after saving two records (ids 1
and 2) and deleting record 2, the next save is assigned id 2 again. -/
theorem id_reuse_counterexample :
    (save embedLen "c" "t" "b" "n"
      (save embedLen "c" "t" "a" "n" (EngineState.empty Nat)).1).2 =
      .success 2 ∧
    (save embedLen "c" "t" "d" "n"
      (delete 2 (save embedLen "c" "t" "b" "n"
        (save embedLen "c" "t" "a" "n" (EngineState.empty Nat)).1).1).1).2 =
      .success 2 := by
  constructor
  · rfl
  · rfl

/-- C9 (amended): the id a save assigns is one greater than the largest
id currently in the table, hence strictly greater than every id of a
live record (so successive saves without deletes get strictly increasing
ids); after the record holding the largest id is deleted, that id can be
assigned again. -/
theorem save_id_assignment {E : Type} (embed : String → E)
    (c t co now : String) (s : EngineState E) :
    (save embed c t co now s).2 = .success (nextId s.docs) ∧
    (∀ id ∈ s.docs.map Prod.fst, id < nextId s.docs) :=
  ⟨rfl, lt_nextId⟩

/-- Witness for C9's amended statement after one save. -/
theorem save_id_assignment_witness :
    1 ∈ ((save embedLen "c" "t" "a" "n"
        (EngineState.empty Nat)).1.docs.map Prod.fst) ∧
    1 < nextId (save embedLen "c" "t" "a" "n"
        (EngineState.empty Nat)).1.docs :=
  ⟨by decide,
   (save_id_assignment embedLen "c" "t" "b" "n"
      (save embedLen "c" "t" "a" "n" (EngineState.empty Nat)).1).2 1
     (by decide)⟩

/-! ## Reciprocal Rank Fusion -/

theorem getVal_bump_self (s : List (Nat × ℚ)) (id : Nat) (v : ℚ) :
    getVal (bump s id v) id = some ((getVal s id).getD 0 + v) := by
  induction s with
  | nil => simp [bump, getVal]
  | cons p rest ih =>
    obtain ⟨k, w⟩ := p
    by_cases hk : k = id
    · subst hk
      simp [bump, getVal]
    · simp only [bump, if_neg hk, getVal, ih]

theorem getVal_bump_ne (s : List (Nat × ℚ)) {id j : Nat} (v : ℚ)
    (h : j ≠ id) : getVal (bump s id v) j = getVal s j := by
  induction s with
  | nil => simp [bump, getVal, if_neg (fun hj : id = j => h hj.symm)]
  | cons p rest ih =>
    obtain ⟨k, w⟩ := p
    by_cases hk : k = id
    · subst hk
      simp only [bump, if_pos rfl, getVal,
        if_neg (fun hkj : k = j => h hkj.symm)]
    · simp only [bump, if_neg hk, getVal, ih]

theorem getValD_addHits (hits : List Nat) (s : List (Nat × ℚ)) (r id : Nat) :
    (getVal (addHits s hits r) id).getD 0 =
      (getVal s id).getD 0 + rankContrib hits r id := by
  induction hits generalizing s r with
  | nil => simp [addHits, rankContrib]
  | cons h rest ih =>
    simp only [addHits, rankContrib]
    rw [ih]
    by_cases hh : h = id
    · subst hh
      rw [getVal_bump_self]
      simp only [Option.getD_some, if_pos rfl, if_true]
      ring
    · rw [getVal_bump_ne _ _ (fun hj : id = h => hh hj.symm)]
      simp only [if_neg hh]
      ring

theorem fusedScore_eq (ftsHits vecHits : List Nat) (id : Nat) :
    fusedScore ftsHits vecHits id =
      rankContrib ftsHits 0 id + rankContrib vecHits 0 id := by
  rw [fusedScore, rrfScoreList, getValD_addHits, getValD_addHits]
  simp [getVal]

theorem rankContrib_eq_of_nodup {hits : List Nat} (hn : hits.Nodup)
    (r id : Nat) :
    rankContrib hits r id =
      if id ∈ hits then 1 / ((r : ℚ) + (hits.indexOf id : ℚ) + 60)
      else 0 := by
  induction hits generalizing r with
  | nil => simp [rankContrib]
  | cons h rest ih =>
    rw [List.nodup_cons] at hn
    by_cases hh : h = id
    · subst hh
      rw [rankContrib, if_pos rfl, ih hn.2 (r + 1),
        if_neg (fun hm => hn.1 hm),
        if_pos (List.mem_cons_self h rest), List.indexOf_cons_self]
      push_cast
      ring
    · rw [rankContrib, if_neg hh, ih hn.2 (r + 1)]
      by_cases hm : id ∈ rest
      · rw [if_pos hm, if_pos (List.mem_cons_of_mem h hm),
          List.indexOf_cons_ne rest hh, Nat.succ_eq_add_one]
        push_cast
        ring
      · rw [if_neg hm, if_neg (fun hmm => ?_)]
        · ring
        · rcases List.mem_cons.1 hmm with h' | h'
          · exact hh h'.symm
          · exact hm h'

/-- C2: the fused score of a document equals the sum over both hit lists
of `1 / (r + 60)`, `r` its 0-based rank there; a document present in
only one list scores from that list alone. -/
theorem rrf_scoring (ftsHits vecHits : List Nat) (id : Nat)
    (hf : ftsHits.Nodup) (hv : vecHits.Nodup)
    (hlf : ftsHits.length ≤ 20) (hlv : vecHits.length ≤ 20) :
    fusedScore ftsHits vecHits id =
      (if id ∈ ftsHits then 1 / ((ftsHits.indexOf id : ℚ) + 60) else 0) +
      (if id ∈ vecHits then 1 / ((vecHits.indexOf id : ℚ) + 60) else 0) := by
  rw [fusedScore_eq, rankContrib_eq_of_nodup hf, rankContrib_eq_of_nodup hv]
  norm_num

/-- Witness for C2 on two short hit lists sharing document 2. -/
theorem rrf_scoring_witness :
    ([1, 2] : List Nat).Nodup ∧ ([2, 3] : List Nat).Nodup ∧
    ([1, 2] : List Nat).length ≤ 20 ∧ ([2, 3] : List Nat).length ≤ 20 ∧
    fusedScore [1, 2] [2, 3] 2 =
      (if 2 ∈ ([1, 2] : List Nat) then
        1 / ((([1, 2] : List Nat).indexOf 2 : ℚ) + 60) else 0) +
      (if 2 ∈ ([2, 3] : List Nat) then
        1 / ((([2, 3] : List Nat).indexOf 2 : ℚ) + 60) else 0) :=
  ⟨by decide, by decide, by decide, by decide,
   rrf_scoring [1, 2] [2, 3] 2 (by decide) (by decide) (by decide)
     (by decide)⟩

/-- C4 (counterexample): with document 1 ranked 0th in the keyword list
and absent from the vector list, and document 2 ranked 19th in both, the
fused score of document 1 (`1/60`) is strictly smaller than that of
document 2 (`2/79`), contradicting the claimed inequality. -/
theorem rrf_fairness_counterexample :
    fusedScore ftsEx vecEx 1 < fusedScore ftsEx vecEx 2 := by
  rw [fusedScore_eq, fusedScore_eq,
    rankContrib_eq_of_nodup (show ftsEx.Nodup by decide),
    rankContrib_eq_of_nodup (show vecEx.Nodup by decide),
    rankContrib_eq_of_nodup (show ftsEx.Nodup by decide),
    rankContrib_eq_of_nodup (show vecEx.Nodup by decide),
    if_pos (show 1 ∈ ftsEx by decide), if_neg (show 1 ∉ vecEx by decide),
    if_pos (show 2 ∈ ftsEx by decide), if_pos (show 2 ∈ vecEx by decide),
    show ftsEx.indexOf 1 = 0 by decide, show ftsEx.indexOf 2 = 19 by decide,
    show vecEx.indexOf 2 = 19 by decide]
  norm_num

/-- C4 (amended): a document ranked 0th in the keyword list and absent
from the vector list scores strictly less than a document ranked 19th in
both lists. -/
theorem rrf_fairness (fts vec : List Nat) (d1 d2 : Nat)
    (hf : fts.Nodup) (hv : vec.Nodup)
    (h1f : d1 ∈ fts) (h1i : fts.indexOf d1 = 0) (h1v : d1 ∉ vec)
    (h2f : d2 ∈ fts) (h2i : fts.indexOf d2 = 19)
    (h2v : d2 ∈ vec) (h2vi : vec.indexOf d2 = 19) :
    fusedScore fts vec d1 < fusedScore fts vec d2 := by
  rw [fusedScore_eq, fusedScore_eq,
    rankContrib_eq_of_nodup hf, rankContrib_eq_of_nodup hv,
    rankContrib_eq_of_nodup hf, rankContrib_eq_of_nodup hv,
    if_pos h1f, if_neg h1v, if_pos h2f, if_pos h2v,
    h1i, h2i, h2vi]
  norm_num

/-- Witness for C4's amended statement on the fixture hit lists. -/
theorem rrf_fairness_witness :
    ftsEx.Nodup ∧ vecEx.Nodup ∧ 1 ∈ ftsEx ∧ ftsEx.indexOf 1 = 0 ∧
    1 ∉ vecEx ∧ 2 ∈ ftsEx ∧ ftsEx.indexOf 2 = 19 ∧ 2 ∈ vecEx ∧
    vecEx.indexOf 2 = 19 ∧ fusedScore ftsEx vecEx 1 < fusedScore ftsEx vecEx 2 :=
  ⟨by decide, by decide, by decide, by decide, by decide, by decide,
   by decide, by decide, by decide,
   rrf_fairness ftsEx vecEx 1 2 (by decide) (by decide) (by decide)
     (by decide) (by decide) (by decide) (by decide) (by decide)
     (by decide)⟩

/-! ## The query pipeline: structural lemmas and concrete runs -/

theorem keys_bump (s : List (Nat × ℚ)) (id : Nat) (v : ℚ) :
    (bump s id v).map Prod.fst =
      if id ∈ s.map Prod.fst then s.map Prod.fst
      else s.map Prod.fst ++ [id] := by
  induction s with
  | nil => simp [bump]
  | cons p rest ih =>
    obtain ⟨k, w⟩ := p
    by_cases hk : k = id
    · subst hk
      simp [bump, List.mem_cons]
    · simp only [bump, if_neg hk, List.map_cons, ih, List.mem_cons]
      by_cases hm : id ∈ rest.map Prod.fst
      · simp [hm, Ne.symm hk]
      · simp [hm, Ne.symm hk]

theorem keys_bump_nodup {s : List (Nat × ℚ)}
    (hn : (s.map Prod.fst).Nodup) (id : Nat) (v : ℚ) :
    ((bump s id v).map Prod.fst).Nodup := by
  rw [keys_bump]
  by_cases hm : id ∈ s.map Prod.fst
  · rw [if_pos hm]
    exact hn
  · rw [if_neg hm]
    exact nodup_snoc hn hm

theorem keys_addHits_nodup (hits : List Nat) (s : List (Nat × ℚ)) (r : Nat)
    (hn : (s.map Prod.fst).Nodup) :
    ((addHits s hits r).map Prod.fst).Nodup := by
  induction hits generalizing s r with
  | nil => exact hn
  | cons h rest ih => exact ih _ _ (keys_bump_nodup hn h _)

theorem keys_rrf_nodup (fts vec : List Nat) :
    ((rrfScoreList fts vec).map Prod.fst).Nodup :=
  keys_addHits_nodup _ _ _ (keys_addHits_nodup _ _ _ (by simp))

theorem mem_queryPipeline {K : Type} [LinearOrderedField K] [FloorRing K]
    {fresh : String → K} {docs : List (Nat × Doc)} {fts vec : List Nat}
    {k : ℤ} {res : QueryResult K}
    (h : res ∈ queryPipeline K fresh docs fts vec k) :
    ∃ d base, getVal docs res.id = some d ∧
      getVal (rrfScoreList fts vec) res.id = some base ∧
      res.score = round4 ((base : K) * fresh d.last_verified) := by
  simp only [queryPipeline] at h
  split at h
  · exact absurd h (List.not_mem_nil res)
  · have h1 : res ∈ List.insertionSort
        (fun x y : QueryResult K => y.score ≤ x.score)
        (((List.insertionSort (fun x y : Nat × ℚ => y.2 ≤ x.2)
            (rrfScoreList fts vec)).take (max (k * 2) 10).toNat).filterMap
          (fun c => (getVal docs c.1).map (fun d =>
            { id := c.1, category := d.category, topic := d.topic,
              content := d.content, timestamp := d.timestamp,
              last_verified := d.last_verified,
              score := round4 ((c.2 : K) * fresh d.last_verified),
              base_score := round4 c.2 }))) := by
      rw [pyTake] at h
      split at h
      · exact List.take_subset _ _ h
      · exact List.take_subset _ _ h
    rw [List.mem_insertionSort, List.mem_filterMap] at h1
    obtain ⟨c, hc, hfc⟩ := h1
    rw [Option.map_eq_some'] at hfc
    obtain ⟨d, hd, hmk⟩ := hfc
    have hcs : c ∈ rrfScoreList fts vec :=
      (List.mem_insertionSort _).1 (List.take_subset _ _ hc)
    have hbase : getVal (rrfScoreList fts vec) c.1 = some c.2 :=
      getVal_of_mem_nodup (keys_rrf_nodup fts vec) hcs
    subst hmk
    exact ⟨d, c.2, hd, hbase, rfl⟩

theorem pipeline_eval1 :
    queryPipeline ℚ (fun _ => 1) [(1, doc1)] [1] [] 1 = [qres1] := by
  norm_num [queryPipeline, rrfScoreList, addHits, bump, List.insertionSort,
    List.orderedInsert, pyTake, getVal, round4, qres1, doc1, round_eq,
    List.cons_ne_nil]

theorem pipeline_eval2 :
    queryPipeline ℚ (fun _ => 1) [(1, doc1), (2, doc2)] [1, 2] [] (-1) =
      [qres1] := by
  norm_num [queryPipeline, rrfScoreList, addHits, bump, List.insertionSort,
    List.orderedInsert, pyTake, getVal, round4, qres1, doc1, doc2,
    round_eq, List.cons_ne_nil]

theorem pipeline_eval3 :
    queryPipeline ℚ (fun _ => 1) [(1, doc1)] [1, 2] [] 2 = [qres1] := by
  norm_num [queryPipeline, rrfScoreList, addHits, bump, List.insertionSort,
    List.orderedInsert, pyTake, getVal, round4, qres1, doc1, round_eq,
    List.cons_ne_nil]

/-- C3 (counterexample): the returned score is rounded to four decimal
places — with one keyword hit the fused score is `1/60` and the
multiplier 1, yet the query returns `0.0167 ≠ 1/60`. -/
theorem freshness_exact_counterexample :
    (queryPipeline ℚ (fun _ => 1) [(1, doc1)] [1] [] 1).map
        (fun r => r.score) = [167 / 10000] ∧
    (167 / 10000 : ℚ) ≠ fusedScore [1] [] 1 * 1 := by
  constructor
  · rw [pipeline_eval1]
    rfl
  · norm_num [fusedScore, rrfScoreList, addHits, bump, getVal]

/-- C3 (amended): the freshness multiplier equals
`max(0.5, 1.0 − 0.05·ln(age_days + 1))` with the age clamped at 0, is
exactly 1 when the timestamp is missing or unparsable, and every
returned result's score equals the fused score times the multiplier,
rounded to four decimal places. -/
theorem freshness_multiplier {K : Type} [LinearOrderedField K]
    [FloorRing K] (a : ℝ) (fresh : String → K) (docs : List (Nat × Doc))
    (fts vec : List Nat) (k : ℤ) (res : QueryResult K)
    (h : res ∈ queryPipeline K fresh docs fts vec k) :
    freshnessFactor (some a) =
      max 0.5 (1.0 - 0.05 * Real.log (max 0 a + 1)) ∧
    freshnessFactor none = 1 ∧
    ∃ d, getVal docs res.id = some d ∧
      res.score = round4 ((fusedScore fts vec res.id : K) *
        fresh d.last_verified) := by
  refine ⟨?_, rfl, ?_⟩
  · rw [show freshnessFactor (some a) =
      max 0.5 (1.0 - Real.log (max 0 a + 1) * 0.05) from rfl, mul_comm]
  · obtain ⟨d, base, hd, hbase, hscore⟩ := mem_queryPipeline h
    refine ⟨d, hd, ?_⟩
    rw [hscore]
    simp [fusedScore, hbase]

/-- Witness for C3's amended statement on a concrete one-document run
with multiplier 1. -/
theorem freshness_multiplier_witness :
    qres1 ∈ queryPipeline ℚ (fun _ => 1) [(1, doc1)] [1] [] 1 ∧
    (freshnessFactor (some 0) =
        max 0.5 (1.0 - 0.05 * Real.log (max 0 0 + 1)) ∧
      freshnessFactor none = 1 ∧
      ∃ d, getVal [(1, doc1)] qres1.id = some d ∧
        qres1.score = round4 ((fusedScore [1] [] qres1.id : ℚ) * 1)) := by
  have hm : qres1 ∈ queryPipeline ℚ (fun _ => 1) [(1, doc1)] [1] [] 1 := by
    rw [pipeline_eval1]
    exact List.mem_singleton.2 rfl
  exact ⟨hm,
    freshness_multiplier 0 (fun _ => 1) [(1, doc1)] [1] [] 1 qres1 hm⟩

/-- C5 (amended): a query with `top_k = 0` returns the empty list, and a
query whose two searches both return no hits yields the empty list for
every `top_k`; a negative `top_k`, by Python slice semantics, instead
drops the last `|top_k|` results. -/
theorem query_edge_cases :
    (∀ (K : Type) [LinearOrderedField K] [FloorRing K]
        (fresh : String → K) (docs : List (Nat × Doc))
        (fts vec : List Nat),
      queryPipeline K fresh docs fts vec 0 = []) ∧
    (∀ (K : Type) [LinearOrderedField K] [FloorRing K]
        (fresh : String → K) (docs : List (Nat × Doc)) (k : ℤ),
      queryPipeline K fresh docs [] [] k = []) := by
  constructor
  · intro K _ _ fresh docs fts vec
    simp only [queryPipeline]
    split
    · rfl
    · simp [pyTake]
  · intro K _ _ fresh docs k
    simp [queryPipeline, rrfScoreList, addHits, List.insertionSort,
      List.take_nil]

/-- C5 (counterexample): with two keyword hits and `top_k = -1`, the
query returns one result, not the empty list. -/
theorem query_negative_topk_counterexample :
    queryPipeline ℚ (fun _ => 1) [(1, doc1), (2, doc2)] [1, 2] [] (-1) ≠
      [] := by
  rw [pipeline_eval2]
  exact List.cons_ne_nil _ _

/-- C10: every result of a query has a row in the document table — fused
candidates with a dangling id are silently skipped and never fail the
query — and a query can return fewer than `top_k` results although the
indexes yielded at least `top_k` fused candidates. -/
theorem dangling_candidates_skipped :
    (∀ (K : Type) [LinearOrderedField K] [FloorRing K]
        (fresh : String → K) (docs : List (Nat × Doc))
        (fts vec : List Nat) (k : ℤ) (res : QueryResult K),
      res ∈ queryPipeline K fresh docs fts vec k →
        res.id ∈ docs.map Prod.fst) ∧
    (queryPipeline ℚ (fun _ => 1) [(1, doc1)] [1, 2] [] 2).length < 2 ∧
    2 ≤ (rrfScoreList [1, 2] []).length := by
  refine ⟨?_, ?_, ?_⟩
  · intro K _ _ fresh docs fts vec k res h
    obtain ⟨d, base, hd, _, _⟩ := mem_queryPipeline h
    exact mem_keys_of_getVal_some hd
  · rw [pipeline_eval3]
    norm_num
  · simp [rrfScoreList, addHits, bump]

/-- Witness for C10 on a concrete run whose only candidate id has a
document row. -/
theorem dangling_candidates_skipped_witness :
    qres1 ∈ queryPipeline ℚ (fun _ => 1) [(1, doc1)] [1] [] 1 ∧
    qres1.id ∈ ([(1, doc1)] : List (Nat × Doc)).map Prod.fst := by
  have hm : qres1 ∈ queryPipeline ℚ (fun _ => 1) [(1, doc1)] [1] [] 1 := by
    rw [pipeline_eval1]
    exact List.mem_singleton.2 rfl
  exact ⟨hm, dangling_candidates_skipped.1 ℚ (fun _ => 1) [(1, doc1)]
    [1] [] 1 qres1 hm⟩

end AgentMemory

